import Mathlib

/-!
Shallow embedding of the lacsap Pascal compiler front-end
(types.cpp, expr.cpp, and the parser translation unit), together with
theorems settling the behavioural claims about it.

Machine integers are modelled as `Nat`/`Int` with explicit `% 2 ^ w`
where overflow matters; fallible code returns `Option`.
-/

namespace Lacsap

/-! ## Type kinds (types.h `TypeDecl::TypeKind`, primitive singletons) -/

/-- The primitive type kinds of the compiler's type lattice.  The
primitive declarations (`IntegerDecl`, `Int64Decl`, `RealDecl`, ...)
are singletons, so pointer equality on them coincides with kind
equality. -/
inductive TypeKind
  | tkInteger
  | tkInt64
  | tkReal
  | tkChar
  | tkBoolean
  | tkVoid
deriving DecidableEq

/-- Modelled from the spec: the base `TypeDecl::SameAs` is declared in
`types.h`, which is not in the sources; the spec states that two types
are structurally equal only when their kinds (and all recursively
compared attributes) match, and primitives carry no further
attributes, so for the primitive singletons `SameAs` is kind
equality. -/
def basicSameAs (a b : TypeKind) : Bool :=
  a = b

/-- `IntegerDecl::AssignableType` (types.cpp:183-190): succeeds only
when `SameAs` holds, returning the argument. -/
def integerAssignableType (ty : TypeKind) : Option TypeKind :=
  if basicSameAs TypeKind.tkInteger ty then some ty else none

/-- `Int64Decl::AssignableType` (types.cpp:210-217): succeeds when
`SameAs` holds or the argument is `TK_Integer`, returning the receiver
(`Int64`). -/
def int64AssignableType (ty : TypeKind) : Option TypeKind :=
  if basicSameAs TypeKind.tkInt64 ty || ty = TypeKind.tkInteger then
    some TypeKind.tkInt64
  else
    none

/-- `RealDecl::AssignableType` (types.cpp:233-240): succeeds when
`SameAs` holds or the argument is `TK_Integer` or `TK_Int64`,
returning the receiver (`Real`). -/
def realAssignableType (ty : TypeKind) : Option TypeKind :=
  if basicSameAs TypeKind.tkReal ty || ty = TypeKind.tkInteger
      || ty = TypeKind.tkInt64 then
    some TypeKind.tkReal
  else
    none

/-! ## Ranges and array types (types.cpp `ArrayDecl`) -/

/-- A `Range` (types.h): a low/high interval.  `operator==` on ranges
(types.cpp:1269-1272) compares start and end. -/
structure RangeT where
  low : Int
  high : Int
deriving DecidableEq

/-- `Range::Size`: number of elements of the interval, `high - low + 1`
(the spec's subrange has `bits() = ceil(log2(high - low + 1))`). -/
def RangeT.size (r : RangeT) : Int :=
  r.high - r.low + 1

/-- An `ArrayDecl`: an element type and a list of subrange dimensions.
Element types are restricted to the primitive singletons, for which
structural equality (`operator==`, used by `CompoundDecl::SameAs`) and
pointer equality (used by `ArrayDecl::CompatibleType`) coincide. -/
structure ArrayT where
  elem : TypeKind
  ranges : List RangeT
deriving DecidableEq

/-- `ArrayDecl::SameAs` (types.cpp:318-342): `CompoundDecl::SameAs`
(same kind — both arrays here — and structurally equal element types),
then equal dimension counts and pairwise equal ranges. -/
def ArrayT.sameAs (a b : ArrayT) : Bool :=
  a.elem = b.elem && a.ranges = b.ranges

/-- `ArrayDecl::CompatibleType` (types.cpp:344-364): return `this` if
`SameAs`; otherwise, if the element types are pointer-identical and
the dimension counts agree, return `0` at the first dimension whose
size differs; in every other case fall off the end and return
`this`. -/
def ArrayT.compatibleType (a b : ArrayT) : Option ArrayT :=
  if a.sameAs b then
    some a
  else if a.elem = b.elem ∧ a.ranges.length = b.ranges.length then
    if (a.ranges.zip b.ranges).all (fun p => p.1.size = p.2.size) then
      some a
    else
      none
  else
    some a

/-! ## Set membership lowering (expr.cpp `BinaryExprAST::CodeGen`, 485-508) -/

/-- The lowering of `x in S` (expr.cpp:485-508): the value `x` is
zero-extended, the word index is `CreateLShr(l, 5)`, the bit offset is
`CreateAnd(l, 31)`, the addressed 32-bit word is loaded from the set's
storage, shifted right by the offset, and truncated to `i1`.  The
set's storage is a word-indexed memory `words`; the `i32` load is
modelled by `% 2 ^ 32`, the `i1` truncation by `% 2`. -/
def inSetLower (x : Nat) (words : Nat → Nat) : Nat :=
  let index := x >>> 5
  let offset := x &&& 31
  let word := words index % 2 ^ 32
  (word >>> offset) % 2

/-! ## Set comparison lowering (expr.cpp `CallSetFunc`, 410-468, and
`BinaryExprAST::CodeGen`, 509-544) -/

/-- The two pointer arguments handed to a `__Set*` runtime helper: the
address of the left operand's storage and the address of the right
operand's storage (either the operand's own address or a temporary the
operand's value was stored into). -/
inductive SetOperand
  | lhsAddr
  | rhsAddr
deriving DecidableEq

/-- A call emitted by `BinaryExprAST::CallSetFunc` (expr.cpp:410-468):
the callee is `"__Set" + name`, the result is bool or a set, and
`CreateCall2(f, lV, rV)` passes the left operand's address first and
the right operand's address second. -/
structure SetCall where
  callee : String
  retIsBool : Bool
  firstArg : SetOperand
  secondArg : SetOperand
deriving DecidableEq

/-- `BinaryExprAST::CallSetFunc` (expr.cpp:410-468). -/
def callSetFunc (name : String) (retIsBool : Bool) : SetCall :=
  { callee := "__Set" ++ name
    retIsBool := retIsBool
    firstArg := SetOperand.lhsAddr
    secondArg := SetOperand.rhsAddr }

/-- The binary operator tokens dispatched on for set-typed operands. -/
inductive SetOpToken
  | minus
  | plus
  | multiply
  | equal
  | notEqual
  | lessOrEqual
  | greaterOrEqual
  | otherTok
deriving DecidableEq

/-- The value produced for a set-set binary operator: a direct helper
call, the negation of a helper call, or an error. -/
inductive SetOpLowering
  | call (c : SetCall)
  | notOf (c : SetCall)
  | err
deriving DecidableEq

/-- The set-set switch of `BinaryExprAST::CodeGen` (expr.cpp:509-544).
For `GreaterOrEqual` a comment claims the operands are passed in
reverse order, but the code performs the very same
`CallSetFunc("Contains", true)` as for `LessOrEqual`. -/
def lowerSetBinaryOp (tok : SetOpToken) : SetOpLowering :=
  match tok with
  | SetOpToken.minus => SetOpLowering.call (callSetFunc "Diff" false)
  | SetOpToken.plus => SetOpLowering.call (callSetFunc "Union" false)
  | SetOpToken.multiply => SetOpLowering.call (callSetFunc "Intersect" false)
  | SetOpToken.equal => SetOpLowering.call (callSetFunc "Equal" true)
  | SetOpToken.notEqual => SetOpLowering.notOf (callSetFunc "Equal" true)
  | SetOpToken.lessOrEqual => SetOpLowering.call (callSetFunc "Contains" true)
  | SetOpToken.greaterOrEqual => SetOpLowering.call (callSetFunc "Contains" true)
  | SetOpToken.otherTok => SetOpLowering.err

/-! ## String assignment (expr.cpp `AssignExprAST::AssignStr`, 1109-1155) -/

/-- Byte memory, addressed from the destination string's base: address
0 is the length byte, addresses 1.. are the character payload. -/
def storeByte (addr v : Nat) (mem : Nat → Nat) : Nat → Nat :=
  fun i => if i = addr then v else mem i

/-- `llvm.memcpy` of `n` bytes from the byte list `src` to destination
address `dst`. -/
def memcpyAt (dst : Nat) (src : List Nat) (n : Nat) (mem : Nat → Nat) :
    Nat → Nat :=
  fun i => if dst ≤ i ∧ i < dst + n then src.getD (i - dst) 0 else mem i

/-- The right-hand side cases `AssignStr` distinguishes: a
`CharExprAST` literal, a `StringExprAST` literal (whose payload bytes
are `s`), or any other expression. -/
inductive StrRhs
  | charLit (c : Nat)
  | strLit (s : List Nat)
  | otherExpr
deriving DecidableEq

/-- `AssignExprAST::AssignStr` (expr.cpp:1109-1155).  `dest1` is
`&dest[0]` (the length byte) and `dest2` is `&dest[1]`.  A char
literal stores length byte `MakeCharConstant(1)` and then the
character's own `MakeCharConstant` value — both i8 constants, so
truncated mod 2^8; a string literal stores length byte
`MakeCharConstant(s.length)` (i8, mod 2^8) and memcpys
`MakeIntegerConstant(s.length)` (i32, mod 2^32) bytes to `dest2`;
every other right-hand side falls through and returns 0 (modelled as
`none`).  The destination's `StringDecl` (and hence its `capacity`) is
in scope in the code but never consulted. -/
def assignStr (capacity : Nat) (rhs : StrRhs) (mem : Nat → Nat) :
    Option (Nat → Nat) :=
  match rhs with
  | StrRhs.charLit c => some (storeByte 1 (c % 2 ^ 8) (storeByte 0 1 mem))
  | StrRhs.strLit s =>
      some (memcpyAt 1 s (s.length % 2 ^ 32)
              (storeByte 0 (s.length % 2 ^ 8) mem))
  | StrRhs.otherExpr => none

/-- Follows the spec's words, for comparison with `assignStr`: "char
literal → length 1 plus byte; string literal/expression → memcpy of
min(len, capacity) bytes and set the length byte". -/
def assignStrSpec (capacity : Nat) (rhs : StrRhs) (mem : Nat → Nat) :
    Option (Nat → Nat) :=
  match rhs with
  | StrRhs.charLit c => some (storeByte 1 c (storeByte 0 1 mem))
  | StrRhs.strLit s =>
      some (memcpyAt 1 s (min s.length capacity)
              (storeByte 0 (min s.length capacity) mem))
  | StrRhs.otherExpr => none

/-! ## For-loop control flow (expr.cpp `ForExprAST::CodeGen`, 1291-1355) -/

/-- The basic blocks of the emitted for-loop scaffold: the entry block
(store of the start value followed by the first loop test), the loop
body block, and the after-loop block. -/
inductive ForBlock
  | entry
  | loop
  | afterLoop
deriving DecidableEq

/-- The observable loop state: the iteration variable's current value
and how many times the body has executed. -/
structure ForState where
  v : Int
  bodyCount : Nat
deriving DecidableEq

/-- The loop test: `CreateICmpSGE(curVar, endV)` for `downto`,
`CreateICmpSLE(curVar, endV)` for `to` (expr.cpp:1319-1326 and
1341-1348, the same comparison both times). -/
def forCond (stepDown : Bool) (endV v : Int) : Bool :=
  if stepDown then endV ≤ v else v ≤ endV

/-- Two's-complement wraparound of an i32 value to its signed
representative in `[-2147483648, 2147483648)`: `2147483648 = 2^31` and
`4294967296 = 2^32`.  The emitted `CreateAdd` carries no
no-signed-wrap flag, so stepping the loop variable wraps. -/
def wrap32 (x : Int) : Int :=
  (x + 2147483648) % 4294967296 - 2147483648

/-- One basic-block execution of the emitted for-loop
(expr.cpp:1291-1355).  In the entry block the start value has been
stored and the test branches to `loop` or `afterLoop`; each `loop`
execution runs the body once, adds the step (`-1` for `downto`, `1`
for `to`) with i32 wraparound, stores it back, re-tests, and
branches. -/
def forStep (stepDown : Bool) (endV : Int) :
    ForBlock × ForState → ForBlock × ForState
  | (ForBlock.entry, s) =>
      if forCond stepDown endV s.v then (ForBlock.loop, s)
      else (ForBlock.afterLoop, s)
  | (ForBlock.loop, s) =>
      let v1 := wrap32 (s.v + (if stepDown then -1 else 1))
      if forCond stepDown endV v1 then
        (ForBlock.loop, ⟨v1, s.bodyCount + 1⟩)
      else
        (ForBlock.afterLoop, ⟨v1, s.bodyCount + 1⟩)
  | (ForBlock.afterLoop, s) => (ForBlock.afterLoop, s)

/-- Run `n` basic-block executions of the for-loop scaffold. -/
def forRun (stepDown : Bool) (endV : Int) :
    Nat → ForBlock × ForState → ForBlock × ForState
  | 0, st => st
  | n + 1, st => forRun stepDown endV n (forStep stepDown endV st)

/-! ## Forward-pointer fixup (parser `Parser::ParseTypeDef`, 653-706) -/

/-- The state of a forward-declared pointer after the type block: its
pointee has been rebound (`SetSubType`) to a declared type, or it
still holds the unresolved identifier string. -/
inductive PtrState
  | resolved (t : TypeKind)
  | unresolved (nm : String)
deriving DecidableEq

/-- The fixup loop at the end of `Parser::ParseTypeDef` (lines
694-705): walk the incomplete pointers (each carrying its pointee's
name); if `GetTypeDecl` (modelled by `env`) finds the name, rebind the
pointer; otherwise report `"Forward declared pointer type not
declared"` and return (so the remaining pointers keep their
unresolved strings).  The result pairs the pointers' final states with
the error flag. -/
def fixupIncomplete (env : String → Option TypeKind) :
    List String → List PtrState × Bool
  | [] => ([], false)
  | n :: rest =>
      match env n with
      | some t =>
          let r := fixupIncomplete env rest
          (PtrState.resolved t :: r.1, r.2)
      | none => (PtrState.unresolved n :: rest.map PtrState.unresolved, true)

/-! ## Closure conversion (parser 25-50 and 2221-2232, expr.cpp 944-951) -/

/-- A parameter of a prototype: name, type, and the by-reference
flag. -/
structure VarDefT where
  vname : String
  vty : TypeKind
  isRef : Bool
deriving DecidableEq

/-- A function prototype: its name and ordered parameter list. -/
structure ProtoT where
  pname : String
  args : List VarDefT
deriving DecidableEq

/-- `PrototypeAST::AddExtraArgs` (expr.cpp:944-951): each captured
variable is appended to the parameter list as a by-reference
parameter. -/
def addExtraArgs (p : ProtoT) (extra : List VarDefT) : ProtoT :=
  { p with args := p.args ++ extra.map (fun v => ⟨v.vname, v.vty, true⟩) }

/-- An argument expression of a call site (only its presence matters
for the counting claim). -/
inductive ArgExpr
  | varRef (nm : String)
  | otherArg
deriving DecidableEq

/-- A `CallExprAST` as seen by the update visitor: the name of its
callee's prototype and its argument list. -/
structure CallSite where
  calleeName : String
  callArgs : List ArgExpr
deriving DecidableEq

/-- `UpdateCallVisitor::visit` (parser lines 25-50) applied to a call:
when the call's prototype name matches the converted prototype's name
and the argument count differs from the (new) parameter count, one
`VariableExprAST` per captured variable is appended to the call's
arguments. -/
def updateCall (proto : ProtoT) (used : List VarDefT) (c : CallSite) :
    CallSite :=
  if c.calleeName = proto.pname ∧ c.callArgs.length ≠ proto.args.length then
    { c with callArgs := c.callArgs ++ used.map (fun u => ArgExpr.varRef u.vname) }
  else
    c

/-- The close of a nested function's definition (parser lines
2221-2232): the prototype gains the used-but-not-declared variables as
extra by-reference parameters, then the update visitor rewrites the
call sites against the extended prototype. -/
def closeDefinition (proto : ProtoT) (used : List VarDefT)
    (calls : List CallSite) : ProtoT × List CallSite :=
  let p1 := addExtraArgs proto used
  (p1, calls.map (updateCall p1 used))

/-! ## Set-literal range loop (expr.cpp `SetExprAST::Address`, 1942-2001) -/

/-- The bit-setting statement of the loop body (expr.cpp:1983-1991):
word index `cur >>> 5`, bit offset `cur &&& 31`, and an or of
`1 <<< offset` into the addressed word. -/
def setBitWord (cur : Nat) (words : Nat → Nat) : Nat → Nat :=
  fun i => if i = cur >>> 5 then words i ||| (1 <<< (cur &&& 31)) else words i

/-- The loop emitted for a range element `low..high` of a set literal
(expr.cpp:1978-2000): each iteration sets the bit for the current
ordinal, increments it, and the conditional branch
`CreateCondBr(CreateICmpSGE(low, high), loopBB, afterBB)` returns to
the loop body exactly when the incremented ordinal is `>= high`,
exiting otherwise.  Runs on zero-extended (non-negative) ordinals;
`fuel` bounds the number of iterations, `none` meaning the bound was
hit. -/
def setRangeLoop (fuel : Nat) (cur high : Nat) (words : Nat → Nat) :
    Option (Nat → Nat) :=
  match fuel with
  | 0 => none
  | f + 1 =>
      if high ≤ cur + 1 then
        setRangeLoop f (cur + 1) high (setBitWord cur words)
      else
        some (setBitWord cur words)

/-! ## Variant layout (types.cpp `VariantDecl::GetLlvmType`, 543-591) -/

/-- What the layout scan reads off one variant arm: its
`getTypeAllocSize` and its `getPrefTypeAlignment`, as given by the
backend's data-layout oracle. -/
structure ArmInfo where
  sz : Nat
  al : Nat
deriving DecidableEq

/-- The running state of the scan over the arms
(types.cpp:546-551). -/
structure ScanState where
  maxSize : Nat
  maxSizeElt : Nat
  maxAlign : Nat
  maxAlignElt : Nat
  maxAlignSize : Nat
  elt : Nat
deriving DecidableEq

/-- The all-zero initial scan state. -/
def initScan : ScanState := ⟨0, 0, 0, 0, 0, 0⟩

/-- One iteration of the scan loop (types.cpp:552-580): track the arm
with the largest allocation size (strictly larger wins, so the first
maximal arm is kept), and the anchor arm with the greatest alignment,
ties broken by strictly larger size. -/
def scanStep (s : ScanState) (f : ArmInfo) : ScanState :=
  let s1 :=
    if s.maxSize < f.sz then
      { s with maxSize := f.sz, maxSizeElt := s.elt }
    else s
  let s2 :=
    if s1.maxAlign < f.al ∨ (f.al = s1.maxAlign ∧ s1.maxAlignSize < f.sz) then
      { s1 with maxAlign := f.al, maxAlignSize := f.sz, maxAlignElt := s1.elt }
    else s1
  { s2 with elt := s2.elt + 1 }

/-- The scan loop over a suffix of the arms. -/
def scanList (s : ScanState) : List ArmInfo → ScanState
  | [] => s
  | f :: r => scanList (scanStep s f) r

/-- The completed scan of `VariantDecl::GetLlvmType` over all arms. -/
def variantScan (arms : List ArmInfo) : ScanState :=
  scanList initScan arms

/-- The allocation size of the anchor member
`fields[maxAlignElt]`. -/
def anchorSize (arms : List ArmInfo) : Nat :=
  (arms.getD (variantScan arms).maxAlignElt ⟨0, 0⟩).sz

/-- The member allocation sizes of the struct built at
types.cpp:582-590: the anchor member, plus — when `maxAlignElt` and
`maxSizeElt` differ — a `char[maxSize - maxAlignSize]` padding
member.  Covers the path where no arm contains an incomplete forward
pointer (otherwise the function returns an opaque placeholder with no
layout). -/
def variantLayout (arms : List ArmInfo) : List Nat :=
  if (variantScan arms).maxAlignElt ≠ (variantScan arms).maxSizeElt then
    [anchorSize arms,
      (variantScan arms).maxSize - (variantScan arms).maxAlignSize]
  else
    [anchorSize arms]

/-- The struct's total allocation size: the sum of its members' sizes
(the padding member is a byte array, so it introduces no inter-member
padding). -/
def variantTotalSize (arms : List ArmInfo) : Nat :=
  (variantLayout arms).sum

/-! ## Shared helper lemmas -/

/-- Zipping a range list with itself pairs each range with itself, so
the per-dimension size comparison of `ArrayDecl::CompatibleType` holds
throughout. -/
theorem zip_self_sizes_all (l : List RangeT) :
    (l.zip l).all (fun p => p.1.size = p.2.size) = true := by
  induction l with
  | nil => rfl
  | cons x xs ih => simpa using ih

/-! ## Claim theorems -/

/-- Claim C1 counterexample: for `array [1..5] of integer` and
`array [1..6] of integer` — identical element type, equal dimension
counts, differing dimension sizes — `ArrayDecl::CompatibleType`
returns 0, not `this`, refuting the claim that it returns the receiver
for every pair of array types even when the dimension sizes differ. -/
theorem arrayCompatibleType_claim_counterexample :
    ArrayT.compatibleType ⟨TypeKind.tkInteger, [⟨1, 5⟩]⟩
        ⟨TypeKind.tkInteger, [⟨1, 6⟩]⟩ = none
    ∧ ArrayT.compatibleType ⟨TypeKind.tkInteger, [⟨1, 5⟩]⟩
        ⟨TypeKind.tkInteger, [⟨1, 6⟩]⟩
      ≠ some ⟨TypeKind.tkInteger, [⟨1, 5⟩]⟩ := by
  constructor
  · rfl
  · intro h
    simp [ArrayT.compatibleType, ArrayT.sameAs, RangeT.size] at h

/-- Claim C1, amended: `ArrayDecl::CompatibleType` on arrays returns
`this` by falling off the end of the function whenever the element
types differ, the dimension counts differ, or all dimension sizes
agree; only when the element types are identical, the dimension counts
are equal, and some dimension's size differs does it return 0. -/
theorem arrayCompatibleType_characterization (a b : ArrayT) :
    a.compatibleType b =
      if a.elem = b.elem ∧ a.ranges.length = b.ranges.length
          ∧ ¬ (a.ranges.zip b.ranges).all (fun p => p.1.size = p.2.size) then
        none
      else
        some a := by
  unfold ArrayT.compatibleType
  by_cases hs : a.sameAs b
  · have hr : a.ranges = b.ranges := by
      have := hs
      simp only [ArrayT.sameAs, Bool.and_eq_true, decide_eq_true_eq] at this
      exact this.2
    rw [if_pos hs]
    have hall : (a.ranges.zip b.ranges).all (fun p => p.1.size = p.2.size) = true := by
      rw [← hr]
      exact zip_self_sizes_all a.ranges
    rw [if_neg]
    intro h
    exact h.2.2 hall
  · rw [if_neg hs]
    by_cases he : a.elem = b.elem ∧ a.ranges.length = b.ranges.length
    · rw [if_pos he]
      by_cases hz : (a.ranges.zip b.ranges).all (fun p => p.1.size = p.2.size) = true
      · rw [if_pos hz, if_neg]
        intro h
        exact h.2.2 hz
      · rw [if_neg hz, if_pos ⟨he.1, he.2, hz⟩]
    · rw [if_neg he, if_neg]
      intro h
      exact he ⟨h.1, h.2.1⟩

/-- Claim C3: `AssignableType` is a monotonic widening chain with no
reverse direction — Integer is assignable to Int64 and to Real, Int64
is assignable to Real, but Int64 is not assignable to Integer, Real is
not assignable to Integer, and Real is not assignable to Int64
(`assignable(dst, src)` is `dst.AssignableType(src)`). -/
theorem assignableType_widening_chain :
    (int64AssignableType TypeKind.tkInteger).isSome = true
    ∧ (realAssignableType TypeKind.tkInteger).isSome = true
    ∧ (realAssignableType TypeKind.tkInt64).isSome = true
    ∧ integerAssignableType TypeKind.tkInt64 = none
    ∧ integerAssignableType TypeKind.tkReal = none
    ∧ int64AssignableType TypeKind.tkReal = none := by
  decide

/-- Claim C4: the lowering of `x in S` computes the word index as
`x >>> 5 = x / 32`, the bit offset as `x &&& 31 = x % 32`, loads that
32-bit word, shifts it right by the offset, and truncates to a
boolean — so the result is 1 exactly when bit `x % 32` of word
`x / 32` is set. -/
theorem inSet_lowering_correct (x : Nat) (words : Nat → Nat) :
    x >>> 5 = x / 32
    ∧ x &&& 31 = x % 32
    ∧ inSetLower x words = (words (x / 32) % 2 ^ 32) / 2 ^ (x % 32) % 2
    ∧ (inSetLower x words = 1
        ↔ Nat.testBit (words (x / 32) % 2 ^ 32) (x % 32)) := by
  have hsh : x >>> 5 = x / 32 := by
    rw [Nat.shiftRight_eq_div_pow]
  have hand : x &&& 31 = x % 32 := by
    have h := Nat.and_pow_two_sub_one_eq_mod x 5
    norm_num at h
    exact h
  have hval : inSetLower x words = (words (x / 32) % 2 ^ 32) / 2 ^ (x % 32) % 2 := by
    unfold inSetLower
    simp only [hsh, hand, Nat.shiftRight_eq_div_pow]
  refine ⟨hsh, hand, hval, ?_⟩
  rw [hval, Nat.testBit_to_div_mod]
  constructor
  · intro h
    simpa using h
  · intro h
    simpa using h

/-- Claim C10: for set-typed operands, `a >= b` lowers to exactly the
same runtime call as `a <= b`: both are `__SetContains` with the left
operand's address as the first argument and the right operand's
address as the second, so the operand order is not reversed. -/
theorem setGeq_lowering_equals_setLeq :
    lowerSetBinaryOp SetOpToken.greaterOrEqual
        = lowerSetBinaryOp SetOpToken.lessOrEqual
    ∧ lowerSetBinaryOp SetOpToken.greaterOrEqual
        = SetOpLowering.call
            ⟨"__SetContains", true, SetOperand.lhsAddr, SetOperand.rhsAddr⟩ := by
  constructor
  · rfl
  · rfl

/-- Claim C8 counterexample: at `start = end = -2^31` (`INT_MIN`,
in-domain for the claim's "start and end values are equal") the
emitted i32 decrement wraps to `2^31 - 1`, `ICmpSGE` holds again, and
after three basic-block executions the loop is still in its body block
with the body already executed twice — not exactly once. -/
theorem forLoop_downto_intmin_counterexample :
    forRun true (-2147483648) 3 (ForBlock.entry, ⟨-2147483648, 0⟩)
      = (ForBlock.loop, ⟨2147483646, 2⟩)
    ∧ (2 : Nat) ≠ 1 := by
  constructor
  · decide
  · decide

/-- Claim C8, amended: a `downto` for-loop whose start and end values
are equal, the value being a valid i32 strictly greater than
`-2^31` (`INT_MIN`), executes its body exactly once — the emitted
control flow tests `start >= end` before the body, runs the body,
decrements, re-tests, and exits: two basic-block executions from the
entry land in the after-loop block with a body count of 1.  At
`INT_MIN` the decrement wraps and the loop re-enters instead. -/
theorem forLoop_downto_equal_runs_once (start endV : Int)
    (hlo : -2147483648 < start) (hhi : start < 2147483648)
    (h : start = endV) :
    forRun true endV 2 (ForBlock.entry, ⟨start, 0⟩)
      = (ForBlock.afterLoop, ⟨start - 1, 1⟩) := by
  subst h
  have hw : wrap32 (start + -1) = start + -1 := by
    unfold wrap32
    have hin1 : (0 : Int) ≤ start + -1 + 2147483648 := by omega
    have hin2 : start + -1 + 2147483648 < 4294967296 := by omega
    rw [Int.emod_eq_of_lt hin1 hin2]
    ring
  have h1 : forCond true start start = true := by simp [forCond]
  have h2 : forCond true start (start + -1) = false := by
    simp only [forCond, if_pos, decide_eq_false_iff_not]
    omega
  simp [forRun, forStep, hw, h1, h2, sub_eq_add_neg]

/-- Claim C8 witness: `for i := 5 downto 5 do` runs its body exactly
once. -/
theorem forLoop_downto_equal_runs_once_witness :
    (-2147483648 : Int) < 5 ∧ (5 : Int) < 2147483648 ∧ (5 : Int) = 5
    ∧ forRun true 5 2 (ForBlock.entry, ⟨5, 0⟩)
        = (ForBlock.afterLoop, ⟨4, 1⟩) :=
  ⟨by decide, by decide, rfl,
    forLoop_downto_equal_runs_once 5 5 (by decide) (by decide) rfl⟩

/-- Claim C7: after the type-declaration block, when every incomplete
pointer's pointee name is declared, the fixup loop rebinds each
pointer to its declared pointee and no pointer still holds an
unresolved identifier string; when some pointee name was never
declared, an error is reported instead. -/
theorem typeDefFixup_resolves_all (env : String → Option TypeKind)
    (incomplete : List String) :
    ((∀ n ∈ incomplete, (env n).isSome) →
      fixupIncomplete env incomplete
        = (incomplete.map
            (fun n => PtrState.resolved ((env n).getD TypeKind.tkVoid)),
           false))
    ∧ ((∃ n ∈ incomplete, env n = none) →
        (fixupIncomplete env incomplete).2 = true) := by
  constructor
  · induction incomplete with
    | nil => intro _; rfl
    | cons n rest ih =>
      intro hall
      have hn := hall n (List.mem_cons_self n rest)
      obtain ⟨t, ht⟩ := Option.isSome_iff_exists.mp hn
      have ih2 := ih (fun m hm => hall m (List.mem_cons_of_mem n hm))
      simp [fixupIncomplete, ht, ih2]
  · induction incomplete with
    | nil => intro hex; simp at hex
    | cons n rest ih =>
      intro hex
      rcases hex with ⟨m, hm, hmnone⟩
      rcases List.mem_cons.mp hm with hEq | hmem
      · subst hEq
        simp [fixupIncomplete, hmnone]
      · cases hcase : env n with
        | none => simp [fixupIncomplete, hcase]
        | some t =>
          simp only [fixupIncomplete, hcase]
          exact ih ⟨m, hmem, hmnone⟩

/-- Claim C7 witness: a block declaring the pointee `T` resolves the
forward pointer to it with no error. -/
theorem typeDefFixup_resolves_all_witness :
    (∀ n ∈ ["T"], (if n = "T" then some TypeKind.tkInteger
        else (none : Option TypeKind)).isSome)
    ∧ fixupIncomplete
        (fun nm => if nm = "T" then some TypeKind.tkInteger else none) ["T"]
      = ([PtrState.resolved TypeKind.tkInteger], false) :=
  ⟨by decide,
   (typeDefFixup_resolves_all
      (fun nm => if nm = "T" then some TypeKind.tkInteger else none)
      ["T"]).1 (by decide)⟩

/-- Claim C2: closing a nested function's definition extends its
prototype by one by-reference parameter per used-but-not-declared
variable — the new parameter count is the original count plus the
number of captured variables — and the update visitor leaves every
call site (which was parsed against the original prototype, so its
argument count equals the original parameter count) with an argument
count equal to the new prototype's parameter count. -/
theorem closureConversion_counts (proto : ProtoT) (used : List VarDefT)
    (c : CallSite) (hname : c.calleeName = proto.pname)
    (hlen : c.callArgs.length = proto.args.length) :
    (addExtraArgs proto used).args.length = proto.args.length + used.length
    ∧ (updateCall (addExtraArgs proto used) used c).callArgs.length
        = (addExtraArgs proto used).args.length := by
  have hadd : (addExtraArgs proto used).args.length
      = proto.args.length + used.length := by
    simp [addExtraArgs]
  refine ⟨hadd, ?_⟩
  unfold updateCall
  by_cases hu : used.length = 0
  · rw [if_neg]
    · omega
    · intro hcond
      exact hcond.2 (by omega)
  · rw [if_pos ⟨hname, by omega⟩]
    simp only [List.length_append, List.length_map]
    omega

/-- Claim C2 witness: a one-parameter nested function capturing one
variable ends with two parameters, and a call site parsed with one
argument ends with two arguments. -/
theorem closureConversion_counts_witness :
    (addExtraArgs ⟨"inner", [⟨"a", TypeKind.tkInteger, false⟩]⟩
        [⟨"k", TypeKind.tkInteger, false⟩]).args.length = 2
    ∧ (updateCall
          (addExtraArgs ⟨"inner", [⟨"a", TypeKind.tkInteger, false⟩]⟩
            [⟨"k", TypeKind.tkInteger, false⟩])
          [⟨"k", TypeKind.tkInteger, false⟩]
          ⟨"inner", [ArgExpr.otherArg]⟩).callArgs.length = 2 := by
  have h := closureConversion_counts
      ⟨"inner", [⟨"a", TypeKind.tkInteger, false⟩]⟩
      [⟨"k", TypeKind.tkInteger, false⟩]
      ⟨"inner", [ArgExpr.otherArg]⟩ rfl rfl
  exact ⟨h.1, h.2.trans h.1⟩

/-- Claim C5 counterexample: assigning the five-byte string literal
`[10, 20, 30, 40, 50]` to a destination of capacity 3 memcpys all five
bytes — byte 4 of the destination receives `40` — whereas the claimed
`memcpy` of `min(source length, capacity) = 3` bytes would leave it
untouched; the code and the claim's described lowering disagree. -/
theorem assignStr_claim_counterexample :
    Option.map (fun m => m 4)
        (assignStr 3 (StrRhs.strLit [10, 20, 30, 40, 50]) (fun _ => 0))
      ≠ Option.map (fun m => m 4)
        (assignStrSpec 3 (StrRhs.strLit [10, 20, 30, 40, 50]) (fun _ => 0)) := by
  decide

/-- Claim C5, amended: a char-literal right-hand side stores length
byte 1 followed by the character (an i8 constant, mod 2^8); a
string-literal right-hand side stores length byte equal to the
literal's length truncated to an i8 (mod 2^8) and memcpys the
literal's length taken as an i32 count (mod 2^32) bytes, with no
clamping to the destination's capacity; any other right-hand side is
unhandled and returns 0. -/
theorem assignStr_characterization (capacity c0 : Nat) (s : List Nat)
    (mem : Nat → Nat) :
    (∀ m1, assignStr capacity (StrRhs.charLit c0) mem = some m1 →
        m1 0 = 1 ∧ m1 1 = c0 % 2 ^ 8 ∧ ∀ i, 2 ≤ i → m1 i = mem i)
    ∧ (∀ m1, assignStr capacity (StrRhs.strLit s) mem = some m1 →
        m1 0 = s.length % 2 ^ 8
        ∧ (∀ j, j < s.length % 2 ^ 32 → m1 (1 + j) = s.getD j 0)
        ∧ ∀ i, 1 + s.length % 2 ^ 32 ≤ i → m1 i = mem i)
    ∧ assignStr capacity StrRhs.otherExpr mem = none := by
  refine ⟨?_, ?_, rfl⟩
  · intro m1 hm
    have hm1 : m1 = storeByte 1 (c0 % 2 ^ 8) (storeByte 0 1 mem) := by
      simpa [assignStr] using hm.symm
    subst hm1
    refine ⟨by simp [storeByte], by simp [storeByte], ?_⟩
    intro i hi
    have h1 : i ≠ 1 := by omega
    have h0 : i ≠ 0 := by omega
    simp [storeByte, h1, h0]
  · intro m1 hm
    have hm1 : m1 = memcpyAt 1 s (s.length % 2 ^ 32)
        (storeByte 0 (s.length % 2 ^ 8) mem) := by
      simpa [assignStr] using hm.symm
    subst hm1
    refine ⟨?_, ?_, ?_⟩
    · simp [memcpyAt, storeByte]
    · intro j hj
      have hge : 1 ≤ 1 + j := by omega
      have hlt : 1 + j < 1 + s.length % 2 ^ 32 := by omega
      simp only [memcpyAt, if_pos (And.intro hge hlt)]
      congr 1
      omega
    · intro i hi
      have hout : ¬ (1 ≤ i ∧ i < 1 + s.length % 2 ^ 32) := by omega
      have h0 : i ≠ 0 := by omega
      simp only [memcpyAt, if_neg hout, storeByte, if_neg h0]

/-- Claim C5 witness: assigning the two-byte literal `[7, 9]` writes
length byte 2, payload bytes 7 and 9, and leaves byte 3 at its old
value. -/
theorem assignStr_characterization_witness :
    Option.map (fun m => (m 0, m 1, m 2, m 3))
        (assignStr 3 (StrRhs.strLit [7, 9]) (fun _ => 5))
      = some (2, 7, 9, 5) := by
  have hp := (assignStr_characterization 3 0 [7, 9] (fun _ => 5)).2.1
      (memcpyAt 1 [7, 9] ([7, 9].length % 2 ^ 32)
        (storeByte 0 ([7, 9].length % 2 ^ 8) (fun _ => 5))) rfl
  have h0 := hp.1
  have h1 := hp.2.1 0 (by norm_num)
  have h2 := hp.2.1 1 (by norm_num)
  have h3 := hp.2.2 3 (by norm_num)
  norm_num at h0 h1 h2 h3
  have hrfl : assignStr 3 (StrRhs.strLit [7, 9]) (fun _ => 5)
      = some (memcpyAt 1 [7, 9] ([7, 9].length % 2 ^ 32)
          (storeByte 0 ([7, 9].length % 2 ^ 8) (fun _ => 5))) := rfl
  rw [hrfl]
  show some (_, _, _, _) = some ((2 : Nat), (7 : Nat), (9 : Nat), (5 : Nat))
  norm_num
  rw [h0, h1, h2, h3]
  exact ⟨rfl, rfl, rfl, rfl⟩

/-- Claim C9: the range loop of the set-literal constructor sets the
bit for the current ordinal, increments, and branches back to the body
exactly when the incremented ordinal is `>= high`; consequently for
every range with `low + 1 < high` the loop exits after the first
iteration with only the bit for `low` set — the membership test
(`inSetLower`) answers 1 for `low` and 0 for every ordinal in
`low+1 .. high`. -/
theorem setRangeLoop_single_iteration (low high fuel : Nat)
    (hfuel : 0 < fuel) (hrange : low + 1 < high) :
    setRangeLoop fuel low high (fun _ => 0)
      = some (fun i => if i = low >>> 5 then 1 <<< (low &&& 31) else 0)
    ∧ inSetLower low (fun i => if i = low >>> 5 then 1 <<< (low &&& 31) else 0)
        = 1
    ∧ ∀ k, low + 1 ≤ k → k ≤ high →
        inSetLower k (fun i => if i = low >>> 5 then 1 <<< (low &&& 31) else 0)
          = 0 := by
  have hand : ∀ x : Nat, x &&& 31 = x % 32 := by
    intro x
    have h := Nat.and_pow_two_sub_one_eq_mod x 5
    norm_num at h
    exact h
  have hsh : ∀ x : Nat, x >>> 5 = x / 32 := by
    intro x
    rw [Nat.shiftRight_eq_div_pow]
  have hlt32 : ∀ x : Nat, 1 <<< (x &&& 31) < 2 ^ 32 := by
    intro x
    rw [hand, Nat.shiftLeft_eq, one_mul]
    exact Nat.pow_lt_pow_right Nat.one_lt_two (Nat.mod_lt _ (by norm_num))
  refine ⟨?_, ?_, ?_⟩
  · cases fuel with
    | zero => omega
    | succ f =>
      simp only [setRangeLoop]
      rw [if_neg (by omega)]
      congr 1
      funext i
      simp [setBitWord]
  · simp only [inSetLower, eq_self_iff_true, if_true]
    rw [Nat.mod_eq_of_lt (hlt32 low), Nat.shiftLeft_eq, one_mul,
      Nat.shiftRight_eq_div_pow, hand]
    rw [Nat.pow_div (le_refl _) (by norm_num)]
    simp
  · intro k hk1 hk2
    by_cases hidx : k >>> 5 = low >>> 5
    · simp only [inSetLower, hidx, eq_self_iff_true, if_true]
      rw [Nat.mod_eq_of_lt (hlt32 low), Nat.shiftLeft_eq, one_mul,
        Nat.shiftRight_eq_div_pow, hand low, hand k]
      have hdiv : k / 32 = low / 32 := by
        rw [← hsh k, ← hsh low, hidx]
      have hne : k % 32 ≠ low % 32 := by omega
      rcases Nat.lt_or_ge (k % 32) (low % 32) with hc | hc
      · rw [Nat.pow_div (le_of_lt hc) (by norm_num)]
        obtain ⟨d, hd⟩ : ∃ d, low % 32 - k % 32 = d + 1 :=
          ⟨low % 32 - k % 32 - 1, by omega⟩
        rw [hd, pow_succ]
        simp [Nat.mul_mod_left]
      · have hlt : low % 32 < k % 32 := by omega
        rw [Nat.div_eq_of_lt (Nat.pow_lt_pow_right Nat.one_lt_two hlt)]
    · simp only [inSetLower, hidx, if_neg hidx]
      simp

/-- Claim C9 witness: for the range `1..5` one iteration of the loop
suffices, and ordinal 3 (inside `low+1 .. high`) is reported absent
from the constructed set. -/
theorem setRangeLoop_single_iteration_witness :
    (0 : Nat) < 1 ∧ 1 + 1 < 5
    ∧ inSetLower 3 (fun i => if i = 1 >>> 5 then 1 <<< (1 &&& 31) else 0)
        = 0 :=
  ⟨by decide, by decide,
    (setRangeLoop_single_iteration 1 5 1 (by decide) (by decide)).2.2 3
      (by decide) (by decide)⟩

/-! ## Invariant of the variant-layout scan -/

/-- The invariant the scan loop maintains after processing the prefix
`pre` of the arms: the element counter equals the number of processed
arms; on a nonempty prefix the recorded indices are in range and point
at arms realizing the recorded maximum size, the recorded anchor
alignment, and the anchor's size; every processed arm's size is
bounded by the maximum, and the anchor's alignment dominates with the
size tie-break. -/
def ScanInv (pre : List ArmInfo) (s : ScanState) : Prop :=
  s.elt = pre.length
  ∧ (pre = [] → s = initScan)
  ∧ (pre ≠ [] →
      s.maxSizeElt < pre.length
      ∧ s.maxAlignElt < pre.length
      ∧ (pre.getD s.maxSizeElt ⟨0, 0⟩).sz = s.maxSize
      ∧ (pre.getD s.maxAlignElt ⟨0, 0⟩).al = s.maxAlign
      ∧ (pre.getD s.maxAlignElt ⟨0, 0⟩).sz = s.maxAlignSize)
  ∧ (∀ a ∈ pre, a.sz ≤ s.maxSize)
  ∧ (∀ a ∈ pre, a.al < s.maxAlign ∨ (a.al = s.maxAlign ∧ a.sz ≤ s.maxAlignSize))

/-- `scanStep` written field-wise: each field of the next state is an
`ite` on the loop's two update conditions. -/
theorem scanStep_eq (s : ScanState) (f : ArmInfo) :
    scanStep s f =
      { maxSize := if s.maxSize < f.sz then f.sz else s.maxSize
        maxSizeElt := if s.maxSize < f.sz then s.elt else s.maxSizeElt
        maxAlign :=
          if s.maxAlign < f.al ∨ (f.al = s.maxAlign ∧ s.maxAlignSize < f.sz)
          then f.al else s.maxAlign
        maxAlignElt :=
          if s.maxAlign < f.al ∨ (f.al = s.maxAlign ∧ s.maxAlignSize < f.sz)
          then s.elt else s.maxAlignElt
        maxAlignSize :=
          if s.maxAlign < f.al ∨ (f.al = s.maxAlign ∧ s.maxAlignSize < f.sz)
          then f.sz else s.maxAlignSize
        elt := s.elt + 1 } := by
  unfold scanStep
  by_cases h1 : s.maxSize < f.sz <;>
    by_cases h2 : s.maxAlign < f.al ∨ (f.al = s.maxAlign ∧ s.maxAlignSize < f.sz) <;>
    simp [h1, h2]

/-- The `maxSize` field after one scan step. -/
theorem scanStep_maxSize (s : ScanState) (f : ArmInfo) :
    (scanStep s f).maxSize = if s.maxSize < f.sz then f.sz else s.maxSize := by
  rw [scanStep_eq]

/-- The `maxSizeElt` field after one scan step. -/
theorem scanStep_maxSizeElt (s : ScanState) (f : ArmInfo) :
    (scanStep s f).maxSizeElt
      = if s.maxSize < f.sz then s.elt else s.maxSizeElt := by
  rw [scanStep_eq]

/-- The `maxAlign` field after one scan step. -/
theorem scanStep_maxAlign (s : ScanState) (f : ArmInfo) :
    (scanStep s f).maxAlign
      = if s.maxAlign < f.al ∨ (f.al = s.maxAlign ∧ s.maxAlignSize < f.sz)
        then f.al else s.maxAlign := by
  rw [scanStep_eq]

/-- The `maxAlignElt` field after one scan step. -/
theorem scanStep_maxAlignElt (s : ScanState) (f : ArmInfo) :
    (scanStep s f).maxAlignElt
      = if s.maxAlign < f.al ∨ (f.al = s.maxAlign ∧ s.maxAlignSize < f.sz)
        then s.elt else s.maxAlignElt := by
  rw [scanStep_eq]

/-- The `maxAlignSize` field after one scan step. -/
theorem scanStep_maxAlignSize (s : ScanState) (f : ArmInfo) :
    (scanStep s f).maxAlignSize
      = if s.maxAlign < f.al ∨ (f.al = s.maxAlign ∧ s.maxAlignSize < f.sz)
        then f.sz else s.maxAlignSize := by
  rw [scanStep_eq]

/-- The `elt` counter after one scan step. -/
theorem scanStep_elt (s : ScanState) (f : ArmInfo) :
    (scanStep s f).elt = s.elt + 1 := by
  rw [scanStep_eq]

/-- The first arm establishes the invariant from the initial state. -/
theorem scanStep_init_inv (f : ArmInfo) :
    ScanInv [f] (scanStep initScan f) := by
  refine ⟨?_, ?_, ?_, ?_, ?_⟩
  · rw [scanStep_elt]
    rfl
  · intro hcon
    simp at hcon
  · intro _
    rw [scanStep_maxSizeElt, scanStep_maxAlignElt, scanStep_maxSize,
      scanStep_maxAlign, scanStep_maxAlignSize]
    have hms0 : initScan.maxSize = 0 := rfl
    have hma0 : initScan.maxAlign = 0 := rfl
    have hmas0 : initScan.maxAlignSize = 0 := rfl
    have helt0 : initScan.elt = 0 := rfl
    have hmse0 : initScan.maxSizeElt = 0 := rfl
    have hmae0 : initScan.maxAlignElt = 0 := rfl
    rw [hms0, hma0, hmas0, helt0, hmse0, hmae0]
    refine ⟨?_, ?_, ?_, ?_, ?_⟩ <;>
      split_ifs <;> simp <;> omega
  · intro a ha
    have haf : a = f := List.mem_singleton.mp ha
    subst haf
    rw [scanStep_maxSize]
    have hms0 : initScan.maxSize = 0 := rfl
    rw [hms0]
    split_ifs with h1 <;> omega
  · intro a ha
    have haf : a = f := List.mem_singleton.mp ha
    subst haf
    rw [scanStep_maxAlign, scanStep_maxAlignSize]
    have hma0 : initScan.maxAlign = 0 := rfl
    have hmas0 : initScan.maxAlignSize = 0 := rfl
    rw [hma0, hmas0]
    split_ifs with h2 <;> omega

/-- A further arm preserves the invariant, the arm being appended to
the processed prefix. -/
theorem scanStep_cons_inv (pre : List ArmInfo) (s : ScanState) (f : ArmInfo)
    (hpre : pre ≠ []) (h : ScanInv pre s) :
    ScanInv (pre ++ [f]) (scanStep s f) := by
  obtain ⟨helt, -, hidx, hub, halign⟩ := h
  obtain ⟨hms, hma, hszEq, halEq, haszEq⟩ := hidx hpre
  have hgetLast : (pre ++ [f]).getD pre.length ⟨0, 0⟩ = f := by
    rw [List.getD_append_right _ _ _ _ (le_refl _)]
    simp
  have hgetPre : ∀ i, i < pre.length →
      (pre ++ [f]).getD i ⟨0, 0⟩ = pre.getD i ⟨0, 0⟩ :=
    fun i hi => List.getD_append _ _ _ _ hi
  refine ⟨?_, ?_, ?_, ?_, ?_⟩
  · simp [scanStep_eq, helt]
  · intro hcon
    simp at hcon
  · intro _
    have hlenA : (pre ++ [f]).length = pre.length + 1 := by simp
    refine ⟨?_, ?_, ?_, ?_, ?_⟩
    · rw [scanStep_maxSizeElt, hlenA]
      split_ifs <;> omega
    · rw [scanStep_maxAlignElt, hlenA]
      split_ifs <;> omega
    · rw [scanStep_maxSizeElt, scanStep_maxSize]
      split_ifs with h1
      · rw [helt, hgetLast]
      · rw [hgetPre _ hms, hszEq]
    · rw [scanStep_maxAlignElt, scanStep_maxAlign]
      split_ifs with h2
      · rw [helt, hgetLast]
      · rw [hgetPre _ hma, halEq]
    · rw [scanStep_maxAlignElt, scanStep_maxAlignSize]
      split_ifs with h2
      · rw [helt, hgetLast]
      · rw [hgetPre _ hma, haszEq]
  · intro a ha
    rw [scanStep_maxSize]
    rcases List.mem_append.mp ha with hap | haf
    · have := hub a hap
      split_ifs with h1 <;> omega
    · have haf2 : a = f := List.mem_singleton.mp haf
      subst haf2
      split_ifs with h1 <;> omega
  · intro a ha
    rw [scanStep_maxAlign, scanStep_maxAlignSize]
    rcases List.mem_append.mp ha with hap | haf
    · have := halign a hap
      split_ifs with h2 <;> omega
    · have haf2 : a = f := List.mem_singleton.mp haf
      subst haf2
      split_ifs with h2 <;> omega

/-- The scan loop carries the invariant over any suffix of the
arms. -/
theorem scanList_inv (l : List ArmInfo) :
    ∀ (pre : List ArmInfo) (s : ScanState), ScanInv pre s →
      ScanInv (pre ++ l) (scanList s l) := by
  induction l with
  | nil =>
    intro pre s h
    simpa [scanList] using h
  | cons f r ih =>
    intro pre s h
    have hstep : ScanInv (pre ++ [f]) (scanStep s f) := by
      by_cases hpre : pre = []
      · subst hpre
        have hs : s = initScan := h.2.1 rfl
        subst hs
        simpa using scanStep_init_inv f
      · exact scanStep_cons_inv pre s f hpre h
    have := ih (pre ++ [f]) (scanStep s f) hstep
    simpa [scanList] using this

/-- The invariant holds for the completed scan of the arm list. -/
theorem variantScan_inv (arms : List ArmInfo) :
    ScanInv arms (variantScan arms) := by
  have hinit : ScanInv [] initScan := by
    refine ⟨rfl, fun _ => rfl, fun hcon => absurd rfl hcon, ?_, ?_⟩ <;> simp
  simpa using scanList_inv arms [] initScan hinit

/-- An in-range `getD` is a member of the list. -/
theorem getD_mem_arms (l : List ArmInfo) (i : Nat) (h : i < l.length) :
    l.getD i ⟨0, 0⟩ ∈ l := by
  rw [List.getD_eq_getElem _ _ h]
  exact List.getElem_mem h

/-- Claim C6: the variant layout picks as anchor the arm with the
greatest alignment (ties broken by larger size); when a different arm
has a larger allocation size, a byte-array padding member of size
(max arm size minus anchor size) is appended; the struct's total size
equals the maximum arm size, so the enclosing record's size is at
least the size of every arm. -/
theorem variantLayout_anchor_padding (arms : List ArmInfo) (h : arms ≠ []) :
    ((arms.getD (variantScan arms).maxAlignElt ⟨0, 0⟩).al
        = (variantScan arms).maxAlign
      ∧ ∀ a ∈ arms, a.al < (variantScan arms).maxAlign
          ∨ (a.al = (variantScan arms).maxAlign ∧ a.sz ≤ anchorSize arms))
    ∧ ((∃ a ∈ arms, anchorSize arms < a.sz) →
        variantLayout arms
          = [anchorSize arms,
             (variantScan arms).maxSize - anchorSize arms])
    ∧ variantTotalSize arms = (variantScan arms).maxSize
    ∧ ∀ a ∈ arms, a.sz ≤ variantTotalSize arms := by
  obtain ⟨helt, -, hidx, hub, halign⟩ := variantScan_inv arms
  obtain ⟨hms, hma, hszEq, halEq, haszEq⟩ := hidx h
  have hanchor : anchorSize arms = (variantScan arms).maxAlignSize := haszEq
  have hanchorLe :
      (variantScan arms).maxAlignSize ≤ (variantScan arms).maxSize := by
    have hmem := getD_mem_arms arms _ hma
    have hb := hub _ hmem
    omega
  have htot : variantTotalSize arms = (variantScan arms).maxSize := by
    unfold variantTotalSize variantLayout
    by_cases heq :
        (variantScan arms).maxAlignElt = (variantScan arms).maxSizeElt
    · rw [if_neg (not_not_intro heq)]
      simp only [List.sum_cons, List.sum_nil]
      have hEq2 : anchorSize arms = (variantScan arms).maxSize := by
        unfold anchorSize
        rw [heq, hszEq]
      omega
    · rw [if_pos heq]
      simp only [List.sum_cons, List.sum_nil]
      omega
  refine ⟨⟨halEq, ?_⟩, ?_, htot, ?_⟩
  · intro a ha
    have hd := halign a ha
    rw [hanchor]
    exact hd
  · rintro ⟨a, ha, hlt⟩
    have hne :
        (variantScan arms).maxAlignElt ≠ (variantScan arms).maxSizeElt := by
      intro heq
      have hEq2 : anchorSize arms = (variantScan arms).maxSize := by
        unfold anchorSize
        rw [heq, hszEq]
      have hb := hub a ha
      omega
    unfold variantLayout
    rw [if_pos hne, hanchor]
  · intro a ha
    have hb := hub a ha
    omega

/-- Claim C6 witness: for arms of (size, alignment) `(4, 4)` and
`(8, 1)` the anchor is the first arm, padding brings the total to the
maximum arm size 8, and each arm fits. -/
theorem variantLayout_anchor_padding_witness :
    ([⟨4, 4⟩, ⟨8, 1⟩] : List ArmInfo) ≠ []
    ∧ variantTotalSize [⟨4, 4⟩, ⟨8, 1⟩]
        = (variantScan [⟨4, 4⟩, ⟨8, 1⟩]).maxSize
    ∧ (8 : Nat) ≤ variantTotalSize [⟨4, 4⟩, ⟨8, 1⟩] :=
  ⟨by decide,
   (variantLayout_anchor_padding [⟨4, 4⟩, ⟨8, 1⟩] (by decide)).2.2.1,
   (variantLayout_anchor_padding [⟨4, 4⟩, ⟨8, 1⟩] (by decide)).2.2.2
     ⟨8, 1⟩ (by decide)⟩

end Lacsap
